import Mathlib

/-!
Shallow embedding of the `rust_diary` repository (a personal daily-log tool).

The repository contains two iterations of the same application:

* `src/src/app.rs` — an `egui`-based iteration (`MyApp`, its `Entry` with plain
  `f32` measurements, `Mode`, the per-frame `update`).  It is embedded in the
  `Gui` namespace directly from the source.

* `src/src/main.rs` / `src/src/ui.rs` — a `ratatui`-based iteration.  These two
  files are callers of a `crate::app` module (struct `App` with `save_entry`,
  `get_entry_by_date`, `get_weights(date, zoom)`, `EditBuffer`, the editing
  session) that is not present under `src/`.  Those operations are therefore
  modelled from the specification (each such definition's doc comment starts
  with `Modelled from the spec:`).  They live in the `Tui` namespace.

Modelling conventions: `f32` measurements are modelled as `ℚ`; `time::Date` is
modelled as its Julian-day number `ℤ` (the source converts dates with
`to_julian_day`); Rust `String`s are modelled as `List Char` (the spec demands
character counts, not byte counts).
-/

namespace Tui

/-- The diary `Entry` of the terminal iteration, as constructed in
`src/src/main.rs` (`content`, `weight_kg : Option<f32>`, `waist_cm :
Option<f32>`, `date`). -/
structure Entry where
  content : List Char
  weight_kg : Option ℚ
  waist_cm : Option ℚ
  date : ℤ
  deriving DecidableEq, Repr

/-- Modelled from the spec: `get(date) → Entry or absent; exact-date lookup`
(§4.2).  This also mirrors `get_entry_by_date` of `src/src/app.rs` lines
108–114 (`entries.iter().find(|entry| entry.date == date)`), transplanted to
the terminal iteration's entry type: the first entry with the given date. -/
def get_entry_by_date : List Entry → ℤ → Option Entry
  | [], _ => none
  | e :: es, d => if e.date = d then some e else get_entry_by_date es d

/-- Modelled from the spec: `upsert(entry)` of §4.2 — the missing
`App::save_entry` called from `src/src/main.rs`.  If an entry with the same
date exists it is replaced in place; otherwise the entry is inserted before
the first existing entry whose date is strictly greater. -/
def save_entry (e : Entry) : List Entry → List Entry
  | [] => [e]
  | x :: xs =>
    if e.date = x.date then e :: xs
    else if e.date < x.date then e :: x :: xs
    else x :: save_entry e xs

/-- A sequence of `save_entry` calls applied in order to a store. -/
def save_all (ops : List Entry) (store : List Entry) : List Entry :=
  ops.foldl (fun s e => save_entry e s) store

/-- The most recently upserted entry for date `d` in a sequence of upserts. -/
def last_upsert (d : ℤ) (ops : List Entry) : Option Entry :=
  (ops.filter (fun e => decide (e.date = d))).getLast?

/-- The EntryStore invariant of spec §3: an ordered sequence of `Entry`,
strictly increasing by date (hence no duplicate dates). -/
def SortedByDate (l : List Entry) : Prop :=
  l.Pairwise (fun a b => a.date < b.date)

instance (l : List Entry) : Decidable (SortedByDate l) :=
  inferInstanceAs (Decidable (l.Pairwise _))

/-- The weekday of a Julian day number, modelling `Date::weekday` of the
`time` crate as a residue modulo 7 (the anchor is irrelevant to the claims:
only congruence modulo 7 matters). -/
def weekday (d : ℤ) : ℤ := d % 7

/-- `Date::prev_occurrence(weekday)` of the `time` crate, used by
`src/src/main.rs` and `src/src/ui.rs`: the latest day strictly before `d`
whose weekday is `w`. -/
def prev_occurrence (d w : ℤ) : ℤ := d - ((d - w - 1) % 7 + 1)

/-- The zoom levels of spec §3, used by `src/src/ui.rs` (`ZoomLevel`). -/
inductive ZoomLevel where
  | Day
  | Week
  | Month
  deriving DecidableEq, Repr

/-- Number of buckets produced per zoom level: spec §4.3 gives 8 offsets
(0..=7) for Day, 8 week-buckets for Week, and an empty series for Month. -/
def num_buckets : ZoomLevel → ℕ
  | .Day => 8
  | .Week => 8
  | .Month => 0

/-- First day of Week-zoom bucket `x` (`x = 0` oldest, `x = 7` the current
week): the bucket boundaries are the iterated previous occurrences of the
reference date's weekday, so bucket `x` spans the 7 days ending at
`ref - 7*(7-x)`. -/
def week_lo (ref : ℤ) (x : ℕ) : ℤ := ref - 7 * (8 - (x : ℤ)) + 1

/-- Last day of Week-zoom bucket `x`. -/
def week_hi (ref : ℤ) (x : ℕ) : ℤ := ref - 7 * (7 - (x : ℤ))

/-- Modelled from the spec: the aggregated `y` value of one bucket (§4.3) of
the missing `App::get_weights`/`App::get_waists` — Day: the raw measurement of
the bucket's single day if present else `0`; Week: the arithmetic mean of the
measurements present in the bucket's calendar week, or `0` for an empty
bucket; Month: unimplemented, empty series. -/
def bucket_value (f : Entry → Option ℚ) (store : List Entry) (ref : ℤ) :
    ZoomLevel → ℕ → ℚ
  | .Day, x =>
    match get_entry_by_date store (prev_occurrence ref (weekday ref) + x) with
    | some e => (f e).getD 0
    | none => 0
  | .Week, x =>
    let samples :=
      (store.filter (fun e =>
        decide (week_lo ref x ≤ e.date ∧ e.date ≤ week_hi ref x))).filterMap f
    if samples = [] then 0 else samples.sum / samples.length
  | .Month, _ => 0

/-- Modelled from the spec: the aggregation engine of §4.3 — the missing
`App::get_weights(date, zoom)` called from `src/src/ui.rs`, parametrised by
the field selector.  Produces one `(x, y)` point per bucket, `x` the
zero-based offset within the window. -/
def get_series (f : Entry → Option ℚ) (store : List Entry) (ref : ℤ)
    (z : ZoomLevel) : List (ℕ × ℚ) :=
  (List.range (num_buckets z)).map (fun x => (x, bucket_value f store ref z x))

/-- Modelled from the spec: `App::get_weights(date, zoom)` (§4.3). -/
def get_weights (store : List Entry) (ref : ℤ) (z : ZoomLevel) :
    List (ℕ × ℚ) :=
  get_series (fun e => e.weight_kg) store ref z

/-- Modelled from the spec: `App::get_waists(date, zoom)` (§4.3). -/
def get_waists (store : List Entry) (ref : ℤ) (z : ZoomLevel) :
    List (ℕ × ℚ) :=
  get_series (fun e => e.waist_cm) store ref z

/-- The calendar days belonging to bucket `x` of the given zoom window,
stated independently of the aggregator: one day for Day zoom, the 7 days of
the calendar week for Week zoom. -/
def bucket_days (ref : ℤ) (z : ZoomLevel) (x : ℕ) : List ℤ :=
  match z with
  | .Day => [prev_occurrence ref (weekday ref) + x]
  | .Week => (List.range 7).map (fun i : ℕ => week_lo ref x + (i : ℤ))
  | .Month => []

/-- The measurements present in the store for the days of bucket `x`. -/
def bucket_samples (f : Entry → Option ℚ) (store : List Entry) (ref : ℤ)
    (z : ZoomLevel) (x : ℕ) : List ℚ :=
  (store.filter (fun e => decide (e.date ∈ bucket_days ref z x))).filterMap f

/-- Modelled from the spec: the `EditBuffer` data model of §3 — a
split-at-cursor text buffer, logical text `before_cursor ++ after_cursor`.
The terminal iteration's type is referenced by `src/src/ui.rs` but absent
from `src/`. -/
structure EditBuffer where
  before_cursor : List Char
  after_cursor : List Char
  deriving DecidableEq, Repr

/-- Modelled from the spec: `create_empty()` (§4.1). -/
def EditBuffer.create_empty : EditBuffer := ⟨[], []⟩

/-- Modelled from the spec: `create_from(text, cursor_index)` (§4.1) — for
`cursor_index = 0` the cursor is placed at the end of `text`; an out-of-range
index is clamped to end-of-text; otherwise the text is split at the index. -/
def EditBuffer.create_from (text : List Char) (cursor_index : ℕ) : EditBuffer :=
  if cursor_index = 0 then ⟨text, []⟩
  else if text.length < cursor_index then ⟨text, []⟩
  else ⟨text.take cursor_index, text.drop cursor_index⟩

/-- Modelled from the spec: `to_text()` (§4.1) — the committed value. -/
def EditBuffer.to_text (b : EditBuffer) : List Char :=
  b.before_cursor ++ b.after_cursor

/-- Modelled from the spec: `insert_char(c)` (§4.1). -/
def EditBuffer.insert_char (b : EditBuffer) (c : Char) : EditBuffer :=
  ⟨b.before_cursor ++ [c], b.after_cursor⟩

/-- Modelled from the spec: `delete_before()` (§4.1) — removes the last
character before the cursor if any; no-op otherwise. -/
def EditBuffer.delete_before (b : EditBuffer) : EditBuffer :=
  ⟨b.before_cursor.dropLast, b.after_cursor⟩

/-- Modelled from the spec: `move_cursor_forward()` (§4.1). -/
def EditBuffer.move_cursor_forward (b : EditBuffer) : EditBuffer :=
  match b.after_cursor with
  | [] => b
  | c :: rest => ⟨b.before_cursor ++ [c], rest⟩

/-- Modelled from the spec: `move_cursor_backward()` (§4.1) — if
`before_cursor` is non-empty, moves its last character to the front of
`after_cursor`; no-op otherwise. -/
def EditBuffer.move_cursor_backward (b : EditBuffer) : EditBuffer :=
  match b.before_cursor.getLast? with
  | none => b
  | some c => ⟨b.before_cursor.dropLast, c :: b.after_cursor⟩

/-- Value of a digit string read left to right. -/
def digits_value (l : List Char) : ℕ :=
  l.foldl (fun n c => 10 * n + (c.toNat - 48)) 0

/-- Modelled from the spec: parsing an edit buffer's text as a decimal number
on commit (§4.4, §7) — parse failure yields no value, never an error.  A
parse succeeds on a non-empty string of digits with at most one decimal
separator and at least one digit. -/
def parse_number (s : List Char) : Option ℚ :=
  if s ≠ [] ∧ (∀ c ∈ s, c.isDigit ∨ c = '.') ∧ s.count '.' ≤ 1 ∧
      (∃ c ∈ s, c.isDigit = true) then
    some ((digits_value (s.takeWhile (fun c => c != '.')) : ℚ) +
      (digits_value ((s.dropWhile (fun c => c != '.')).drop 1) : ℚ) /
        (10 : ℚ) ^ ((s.dropWhile (fun c => c != '.')).drop 1).length)
  else none

/-- Modelled from the spec: the editing session of §4.4 — the current date
and the three EditBuffers (content, weight-as-text, waist-as-text) hydrated
on entering edit mode. -/
structure Session where
  edit_content : EditBuffer
  edit_weight : EditBuffer
  edit_waist : EditBuffer
  date : ℤ
  deriving DecidableEq, Repr

/-- Modelled from the spec: the Editing → Browsing commit transition (§4.4) —
the missing `App::enter_main_mode` invoked from `src/src/main.rs` on Enter:
converts each EditBuffer to text, parses weight/waist as decimal numbers
(failure = absence), and upserts the resulting entry only if at least one of
content/weight/waist is non-empty/present. -/
def commit (sess : Session) (store : List Entry) : List Entry :=
  let content := sess.edit_content.to_text
  let w := parse_number sess.edit_weight.to_text
  let wa := parse_number sess.edit_waist.to_text
  if content ≠ [] ∨ w.isSome ∨ wa.isSome then
    save_entry ⟨content, w, wa, sess.date⟩ store
  else store

/-- Modelled from the spec: the persisted textual representation of §6 as a
tree of field names and values (one object per entry; byte-level mechanics are
excluded by §1). -/
inductive Json where
  | str : List Char → Json
  | num : ℚ → Json
  | null : Json
  | arr : List Json → Json
  | obj : List (List Char × Json) → Json

def content_key : List Char := ['c', 'o', 'n', 't', 'e', 'n', 't']

def weight_key : List Char := ['w', 'e', 'i', 'g', 'h', 't', '_', 'k', 'g']

def waist_key : List Char := ['w', 'a', 'i', 's', 't', '_', 'c', 'm']

def date_key : List Char := ['d', 'a', 't', 'e']

/-- A number-or-explicit-absence field value (§6). -/
def optional_to_json : Option ℚ → Json
  | some q => .num q
  | none => .null

def json_to_optional : Json → Option (Option ℚ)
  | .num q => some (some q)
  | .null => some none
  | _ => none

/-- Modelled from the spec: serialization of one entry (§6) — fields
`content` (string), `weight_kg`/`waist_cm` (number or explicit absence) and
`date` (fixed unambiguous encoding, here its Julian day number). -/
def serialize_entry (e : Entry) : Json :=
  .obj [(content_key, .str e.content),
        (weight_key, optional_to_json e.weight_kg),
        (waist_key, optional_to_json e.waist_cm),
        (date_key, .num (e.date : ℚ))]

/-- Modelled from the spec: deserialization of one entry (§6); malformed
values yield `none`. -/
def deserialize_entry : Json → Option Entry
  | .obj [(k1, .str c), (k2, jw), (k3, jwa), (k4, .num d)] =>
    if k1 = content_key ∧ k2 = weight_key ∧ k3 = waist_key ∧ k4 = date_key ∧
        d.den = 1 then
      match json_to_optional jw, json_to_optional jwa with
      | some w, some wa => some ⟨c, w, wa, d.num⟩
      | _, _ => none
    else none
  | _ => none

/-- Modelled from the spec: `serialize current EntryStore` (§5/§6) — one
object per entry, in store order. -/
def serialize (store : List Entry) : Json :=
  .arr (store.map serialize_entry)

def deserialize_entries : List Json → Option (List Entry)
  | [] => some []
  | j :: js =>
    match deserialize_entry j, deserialize_entries js with
    | some e, some es => some (e :: es)
    | _, _ => none

/-- Modelled from the spec: `deserialize bytes to EntryStore` (§5/§6). -/
def deserialize : Json → Option (List Entry)
  | .arr l => deserialize_entries l
  | _ => none

end Tui

def c1_e1 : Tui.Entry := ⟨['a'], some 70, none, 5⟩
def c1_e2 : Tui.Entry := ⟨['b'], some 72, some 80, 5⟩
def c1_e3 : Tui.Entry := ⟨[], none, some 81, 3⟩
def c1_ops : List Tui.Entry := [c1_e1, c1_e3, c1_e2]

/-- C2 counterexample store: a single entry carrying weight `80` dated on the
reference day `0` itself — the last day of the Day-zoom window. -/
def c2_store : List Tui.Entry := [⟨['w'], some 80, none, 0⟩]

/-- C5 witness store: three entries with weights 70, 80, 90, all inside the
current calendar week of reference day `0` (days `-6..0`). -/
def c5_store : List Tui.Entry :=
  [⟨[], some 70, none, -6⟩, ⟨[], some 80, none, -3⟩, ⟨[], some 90, none, 0⟩]

/-- C4 witness session: all three edit buffers empty, on date `0`. -/
def c4_sess : Tui.Session :=
  ⟨Tui.EditBuffer.create_empty, Tui.EditBuffer.create_empty,
    Tui.EditBuffer.create_empty, 0⟩

namespace Gui

/-- `Entry` of `src/src/app.rs` lines 9–18: plain `f32` measurements (as ℚ)
with `0.0` standing for absence, plus the `edit` flag. -/
structure Entry where
  content : List Char
  weight_kg : ℚ
  waist_cm : ℚ
  date : ℤ
  edit : Bool
  deriving DecidableEq, Repr

/-- `Task` of `src/src/app.rs` lines 20–26. -/
structure Task where
  text : List Char
  done : Bool
  edit : Bool
  delete : Bool
  deriving DecidableEq, Repr

/-- `Task::default` of `src/src/app.rs` lines 29–36. -/
def Task.default : Task := ⟨"New task".toList, false, false, false⟩

/-- `Section` of `src/src/app.rs` lines 39–45. -/
structure Section where
  title : List Char
  tasks : List Task
  edit : Bool
  delete : Bool
  deriving DecidableEq, Repr

/-- `Section::default` of `src/src/app.rs` lines 48–55. -/
def Section.default : Section :=
  ⟨"New Section".toList, [Task.default], true, false⟩

/-- `Mode` of `src/src/app.rs` lines 62–66. -/
inductive Mode where
  | Main
  | Edit
  deriving DecidableEq, Repr

/-- `MyApp` of `src/src/app.rs` lines 69–79. -/
structure MyApp where
  sections : List Section
  entries : List Entry
  curr_date : ℤ
  mode : Mode
  first_time_edit : Bool
  scale_factor : ℚ
  path_to_file : List Char
  deriving DecidableEq, Repr

/-- `MyApp::default` of `src/src/app.rs` lines 82–93; the process-wide
current local date (`OffsetDateTime::now_local()`) is the injected `now`. -/
def MyApp.default (now : ℤ) : MyApp :=
  ⟨[Section.default], [], now, Mode.Main, false, 2, "diary.json".toList⟩

/-- `MyApp::new` of `src/src/app.rs` lines 94–106.  `storage` models the
combination of `cc.storage` and `eframe::get_value`: `some app` when a
persisted state exists and decodes, `none` otherwise. -/
def MyApp.new (storage : Option MyApp) (now : ℤ) : MyApp :=
  match storage with
  | some app => { app with curr_date := now, mode := Mode.Main }
  | none => MyApp.default now

/-- The entry-retention step closing every Edit-mode update pass,
`src/src/app.rs` line 488: `entries.retain(|t| t.edit == true ||
t.content.len() > 0 || t.weight_kg > 0.0 || t.waist_cm > 0.0)`. -/
def retain_edit_pass (entries : List Entry) : List Entry :=
  entries.filter (fun t => t.edit == true || decide (0 < t.content.length) ||
    decide ((0 : ℚ) < t.weight_kg) || decide ((0 : ℚ) < t.waist_cm))

end Gui

/-- C9 witness app state: persisted with mode `Edit` and date `3`. -/
def c9_app : Gui.MyApp :=
  ⟨[], [⟨['x'], 70, 0, 4, false⟩], 3, Gui.Mode.Edit, true, 1, []⟩

/-- C10 witness entries: an empty entry with the edit flag set (kept), and an
empty entry without it (removed). -/
def c10_keep : Gui.Entry := ⟨[], 0, 0, 0, true⟩

def c10_drop : Gui.Entry := ⟨[], 0, 0, 1, false⟩

def c10_entries : List Gui.Entry := [c10_keep, c10_drop]

namespace Tui

theorem save_entry_cons (e x : Entry) (xs : List Entry) :
    save_entry e (x :: xs) =
      if e.date = x.date then e :: xs
      else if e.date < x.date then e :: x :: xs
      else x :: save_entry e xs := rfl

theorem get_entry_cons (x : Entry) (xs : List Entry) (d : ℤ) :
    get_entry_by_date (x :: xs) d =
      if x.date = d then some x else get_entry_by_date xs d := rfl

theorem mem_save_entry {e y : Entry} :
    ∀ {s : List Entry}, y ∈ save_entry e s → y = e ∨ y ∈ s := by
  intro s
  induction s with
  | nil =>
    intro h
    simp [save_entry] at h
    exact Or.inl h
  | cons x xs ih =>
    intro h
    by_cases h1 : e.date = x.date
    · simp [save_entry, h1] at h
      rcases h with h | h
      · exact Or.inl h
      · exact Or.inr (List.mem_cons_of_mem _ h)
    · by_cases h2 : e.date < x.date
      · simp [save_entry, h1, h2] at h
        rcases h with h | h | h
        · exact Or.inl h
        · exact Or.inr (by simp [h])
        · exact Or.inr (List.mem_cons_of_mem _ h)
      · simp [save_entry, h1, h2] at h
        rcases h with h | h
        · exact Or.inr (by simp [h])
        · rcases ih h with h | h
          · exact Or.inl h
          · exact Or.inr (List.mem_cons_of_mem _ h)

theorem save_entry_sorted {e : Entry} :
    ∀ {s : List Entry}, SortedByDate s → SortedByDate (save_entry e s) := by
  intro s
  induction s with
  | nil =>
    intro _
    simp [save_entry, SortedByDate]
  | cons x xs ih =>
    intro hs
    rw [SortedByDate, List.pairwise_cons] at hs
    obtain ⟨hx, hxs⟩ := hs
    by_cases h1 : e.date = x.date
    · rw [SortedByDate, save_entry_cons, if_pos h1, List.pairwise_cons]
      exact ⟨fun y hy => h1 ▸ hx y hy, hxs⟩
    · by_cases h2 : e.date < x.date
      · rw [SortedByDate, save_entry_cons, if_neg h1, if_pos h2,
          List.pairwise_cons]
        constructor
        · intro y hy
          rcases List.mem_cons.mp hy with hy | hy
          · exact hy ▸ h2
          · exact lt_trans h2 (hx y hy)
        · rw [List.pairwise_cons]
          exact ⟨hx, hxs⟩
      · have h3 : x.date < e.date := by
          rcases lt_trichotomy e.date x.date with h | h | h
          · exact absurd h h2
          · exact absurd h h1
          · exact h
        rw [SortedByDate, save_entry_cons, if_neg h1, if_neg h2,
          List.pairwise_cons]
        constructor
        · intro y hy
          rcases mem_save_entry hy with hy | hy
          · exact hy ▸ h3
          · exact hx y hy
        · exact ih hxs

theorem get_save_entry_self (e : Entry) :
    ∀ (s : List Entry), get_entry_by_date (save_entry e s) e.date = some e := by
  intro s
  induction s with
  | nil => simp [save_entry, get_entry_by_date]
  | cons x xs ih =>
    by_cases h1 : e.date = x.date
    · rw [save_entry_cons, if_pos h1, get_entry_cons, if_pos rfl]
    · by_cases h2 : e.date < x.date
      · rw [save_entry_cons, if_neg h1, if_pos h2, get_entry_cons, if_pos rfl]
      · have h3 : x.date ≠ e.date := fun h => h1 h.symm
        rw [save_entry_cons, if_neg h1, if_neg h2, get_entry_cons, if_neg h3]
        exact ih

theorem get_save_entry_other (e : Entry) (d : ℤ) (hd : d ≠ e.date) :
    ∀ (s : List Entry),
      get_entry_by_date (save_entry e s) d = get_entry_by_date s d := by
  intro s
  have he : e.date ≠ d := fun h => hd h.symm
  induction s with
  | nil => simp [save_entry, get_entry_by_date, he]
  | cons x xs ih =>
    by_cases h1 : e.date = x.date
    · have hx : x.date ≠ d := h1 ▸ he
      rw [save_entry_cons, if_pos h1, get_entry_cons, if_neg he,
        get_entry_cons, if_neg hx]
    · by_cases h2 : e.date < x.date
      · rw [save_entry_cons, if_neg h1, if_pos h2, get_entry_cons, if_neg he]
      · rw [save_entry_cons, if_neg h1, if_neg h2, get_entry_cons,
          get_entry_cons]
        by_cases hx : x.date = d
        · rw [if_pos hx, if_pos hx]
        · rw [if_neg hx, if_neg hx]
          exact ih

/-- C1: for every sequence of `save_entry` (upsert) calls starting from any
store state satisfying the EntryStore invariant, the resulting store is
strictly increasing by date (hence has no duplicate dates), and
`get_entry_by_date d` returns the most recently upserted entry for date `d`
whenever the sequence upserted one. -/
theorem save_entry_seq_invariant (init ops : List Tui.Entry)
    (hinit : Tui.SortedByDate init) :
    Tui.SortedByDate (Tui.save_all ops init) ∧
    ∀ d e, Tui.last_upsert d ops = some e →
      Tui.get_entry_by_date (Tui.save_all ops init) d = some e := by
  induction ops using List.reverseRecOn generalizing init with
  | nil =>
    refine ⟨hinit, ?_⟩
    intro d e h
    simp [Tui.last_upsert] at h
  | append_singleton ops op ih =>
    have hstep : Tui.save_all (ops ++ [op]) init =
        Tui.save_entry op (Tui.save_all ops init) := by
      simp [Tui.save_all]
    obtain ⟨hsorted, hget⟩ := ih init hinit
    refine ⟨?_, ?_⟩
    · rw [hstep]
      exact Tui.save_entry_sorted hsorted
    · intro d e h
      rw [hstep]
      by_cases hd : op.date = d
      · have hfilter :
            (ops ++ [op]).filter (fun x => decide (x.date = d)) =
              ops.filter (fun x => decide (x.date = d)) ++ [op] := by
          simp [List.filter_append, hd]
        rw [Tui.last_upsert, hfilter, List.getLast?_concat] at h
        obtain rfl : op = e := by injection h
        exact hd ▸ Tui.get_save_entry_self op (Tui.save_all ops init)
      · have hfilter :
            (ops ++ [op]).filter (fun x => decide (x.date = d)) =
              ops.filter (fun x => decide (x.date = d)) := by
          simp [List.filter_append, hd]
        rw [Tui.last_upsert, hfilter] at h
        rw [Tui.get_save_entry_other op d (fun hh => hd hh.symm)]
        exact hget d e h

end Tui

/-- C1 witness: from the empty store, upserting entries dated 5, 3, 5 yields a
store sorted strictly by date, and lookup at date 5 returns the entry upserted
last. -/
theorem save_entry_seq_invariant_witness :
    Tui.SortedByDate (Tui.save_all c1_ops []) ∧
    Tui.get_entry_by_date (Tui.save_all c1_ops []) 5 = some c1_e2 := by
  have h := Tui.save_entry_seq_invariant [] c1_ops (by decide)
  exact ⟨h.1, h.2 5 c1_e2 (by decide)⟩

namespace Tui

theorem prev_occurrence_weekday (d : ℤ) :
    prev_occurrence d (weekday d) = d - 7 := by
  unfold prev_occurrence weekday
  omega

theorem get_entry_eq_some {s : List Entry} {d : ℤ} {e : Entry} :
    get_entry_by_date s d = some e → e ∈ s ∧ e.date = d := by
  induction s with
  | nil => intro h; simp [get_entry_by_date] at h
  | cons x xs ih =>
    intro h
    rw [get_entry_cons] at h
    by_cases hx : x.date = d
    · rw [if_pos hx] at h
      obtain rfl : x = e := by injection h
      exact ⟨List.mem_cons_self _ _, hx⟩
    · rw [if_neg hx] at h
      obtain ⟨h1, h2⟩ := ih h
      exact ⟨List.mem_cons_of_mem _ h1, h2⟩

theorem mem_bucket_days_week (ref : ℤ) (x : ℕ) (d : ℤ) :
    d ∈ bucket_days ref ZoomLevel.Week x ↔
      week_lo ref x ≤ d ∧ d ≤ week_hi ref x := by
  constructor
  · intro hd
    simp only [bucket_days, List.mem_map, List.mem_range] at hd
    obtain ⟨i, hi, rfl⟩ := hd
    unfold week_lo week_hi
    omega
  · intro hd
    unfold week_lo week_hi at hd
    simp only [bucket_days, List.mem_map, List.mem_range]
    unfold week_lo
    exact ⟨(d - (ref - 7 * (8 - (x : ℤ)) + 1)).toNat, by omega, by omega⟩

theorem week_samples_eq (f : Entry → Option ℚ) (store : List Entry) (ref : ℤ)
    (x : ℕ) :
    (store.filter (fun e =>
        decide (week_lo ref x ≤ e.date ∧ e.date ≤ week_hi ref x))).filterMap f =
      bucket_samples f store ref ZoomLevel.Week x := by
  rw [bucket_samples]
  congr 1
  apply List.filter_congr
  intro e _
  rw [decide_eq_decide]
  exact (mem_bucket_days_week ref x e.date).symm

theorem bucket_value_week (f : Entry → Option ℚ) (store : List Entry)
    (ref : ℤ) (x : ℕ) :
    bucket_value f store ref ZoomLevel.Week x =
      if bucket_samples f store ref ZoomLevel.Week x = [] then 0
      else (bucket_samples f store ref ZoomLevel.Week x).sum /
        (bucket_samples f store ref ZoomLevel.Week x).length := by
  simp only [bucket_value]
  rw [week_samples_eq]

theorem get_series_fst (f : Entry → Option ℚ) (store : List Entry) (ref : ℤ)
    (z : ZoomLevel) :
    (get_series f store ref z).map Prod.fst = List.range (num_buckets z) := by
  simp [get_series, List.map_map, Function.comp_def]

theorem get_series_sentinel (f : Entry → Option ℚ) (store : List Entry)
    (ref : ℤ) (z : ZoomLevel) :
    ∀ p ∈ get_series f store ref z,
      bucket_samples f store ref z p.1 = [] → p.2 = 0 := by
  intro p hp hsamp
  simp only [get_series, List.mem_map, List.mem_range] at hp
  obtain ⟨x, hx, rfl⟩ := hp
  simp only at hsamp ⊢
  cases z with
  | Month => simp [bucket_value]
  | Day =>
    cases hget : get_entry_by_date store (prev_occurrence ref (weekday ref) + x) with
    | none => simp [bucket_value, hget]
    | some e =>
      obtain ⟨hmem, hdate⟩ := get_entry_eq_some hget
      have hfe : f e = none := by
        rw [bucket_samples] at hsamp
        refine List.filterMap_eq_nil_iff.mp hsamp e ?_
        rw [List.mem_filter]
        exact ⟨hmem, by simp [bucket_days, hdate]⟩
      simp [bucket_value, hget, hfe]
  | Week =>
    rw [bucket_value_week, if_pos hsamp]

end Tui

/-- C2 counterexample: the Day-zoom window spans 8 days, not 7.  For a store
holding a single entry with weight `80` dated on the reference day (the
window's last day), the series has 8 points and the non-zero point sits at
offset `x = 7`, not at `x = 6`. -/
theorem get_weights_day_counterexample :
    (Tui.get_weights c2_store 0 Tui.ZoomLevel.Day).length ≠ 7 ∧
    (7, (80 : ℚ)) ∈ Tui.get_weights c2_store 0 Tui.ZoomLevel.Day ∧
    (6, (80 : ℚ)) ∉ Tui.get_weights c2_store 0 Tui.ZoomLevel.Day := by
  decide

/-- C2 (amended): Day-zoom aggregation produces points exactly for the 8-day
window starting at the most recent strictly-prior occurrence of the reference
date's weekday (`ref - 7`) and ending on the reference date, with each
point's `x` the zero-based day offset from the window start (`0..7`) and `y`
the day's raw measurement if present, else `0`. -/
theorem get_weights_day_window (store : List Tui.Entry) (ref : ℤ) :
    Tui.get_weights store ref Tui.ZoomLevel.Day =
      (List.range 8).map (fun k : ℕ =>
        (k, ((Tui.get_entry_by_date store (ref - 7 + (k : ℤ))).bind
          (fun e => e.weight_kg)).getD 0)) := by
  simp only [Tui.get_weights, Tui.get_series, Tui.num_buckets]
  apply List.map_congr_left
  intro k _
  simp only [Tui.bucket_value, Tui.prev_occurrence_weekday]
  cases hget : Tui.get_entry_by_date store (ref - 7 + (k : ℤ)) <;>
    simp [hget]

/-- C3: for every store, reference date and Day/Week zoom level, the
aggregated weight and waist series contain one point per bucket of the
window, with `x` the zero-based offset within the window (the offsets are
exactly `0..7`), and `y = 0` is emitted for every bucket holding no sample of
the selected measurement. -/
theorem series_covers_buckets_zero_sentinel (store : List Tui.Entry)
    (ref : ℤ) (z : Tui.ZoomLevel)
    (hz : z = Tui.ZoomLevel.Day ∨ z = Tui.ZoomLevel.Week) :
    ((Tui.get_weights store ref z).map Prod.fst = List.range 8 ∧
      ∀ p ∈ Tui.get_weights store ref z,
        Tui.bucket_samples (fun e => e.weight_kg) store ref z p.1 = [] →
          p.2 = 0) ∧
    ((Tui.get_waists store ref z).map Prod.fst = List.range 8 ∧
      ∀ p ∈ Tui.get_waists store ref z,
        Tui.bucket_samples (fun e => e.waist_cm) store ref z p.1 = [] →
          p.2 = 0) := by
  have h8 : Tui.num_buckets z = 8 := by
    rcases hz with rfl | rfl <;> rfl
  refine ⟨⟨?_, ?_⟩, ⟨?_, ?_⟩⟩
  · rw [Tui.get_weights, Tui.get_series_fst, h8]
  · exact Tui.get_series_sentinel _ store ref z
  · rw [Tui.get_waists, Tui.get_series_fst, h8]
  · exact Tui.get_series_sentinel _ store ref z

/-- C3 witness: on the empty store at reference day `0` with Day zoom, the
weight series' offsets are exactly `0..7`. -/
theorem series_covers_buckets_zero_sentinel_witness :
    (Tui.get_weights [] 0 Tui.ZoomLevel.Day).map Prod.fst = List.range 8 :=
  (series_covers_buckets_zero_sentinel [] 0 Tui.ZoomLevel.Day (Or.inl rfl)).1.1

/-- C5: for every Week-zoom bucket `x` the aggregated `y` equals the
arithmetic mean of the measurements present in that calendar week, and equals
`0` when the bucket holds zero samples. -/
theorem week_bucket_mean (store : List Tui.Entry) (ref : ℤ) (x : ℕ)
    (hx : x < 8) :
    (Tui.get_weights store ref Tui.ZoomLevel.Week)[x]? =
      some (x,
        if Tui.bucket_samples (fun e => e.weight_kg) store ref
            Tui.ZoomLevel.Week x = [] then 0
        else (Tui.bucket_samples (fun e => e.weight_kg) store ref
            Tui.ZoomLevel.Week x).sum /
          (Tui.bucket_samples (fun e => e.weight_kg) store ref
            Tui.ZoomLevel.Week x).length) := by
  simp only [Tui.get_weights, Tui.get_series, Tui.num_buckets]
  rw [List.getElem?_map]
  have hr : (List.range 8)[x]? = some x := by
    simp [hx]
  rw [hr, Option.map_some']
  rw [Tui.bucket_value_week]

/-- C5 witness: three weight samples 70, 80, 90 in the current calendar week
of reference day `0` yield the mean `80` at the last Week-zoom bucket. -/
theorem week_bucket_mean_witness :
    7 < 8 ∧
    (Tui.get_weights c5_store 0 Tui.ZoomLevel.Week)[7]? = some (7, 80) := by
  refine ⟨by norm_num, ?_⟩
  have h := week_bucket_mean c5_store 0 7 (by norm_num)
  rw [h]
  have hs : Tui.bucket_samples (fun e => e.weight_kg) c5_store 0
      Tui.ZoomLevel.Week 7 = [70, 80, 90] := by decide
  rw [hs, if_neg (by simp : ¬([70, 80, 90] : List ℚ) = [])]
  norm_num

/-- C7: upsert is idempotent — for every store state and every entry `e`,
upserting `e` twice in succession yields the same store as upserting it
once. -/
theorem save_entry_idempotent (e : Tui.Entry) (s : List Tui.Entry) :
    Tui.save_entry e (Tui.save_entry e s) = Tui.save_entry e s := by
  induction s with
  | nil => simp [Tui.save_entry]
  | cons x xs ih =>
    by_cases h1 : e.date = x.date
    · simp [Tui.save_entry, h1]
    · by_cases h2 : e.date < x.date
      · simp [Tui.save_entry, h1, h2]
      · simp [Tui.save_entry, h1, h2, ih]

namespace Tui

theorem deserialize_serialize_entry (e : Entry) :
    deserialize_entry (serialize_entry e) = some e := by
  obtain ⟨c, w, wa, d⟩ := e
  cases w <;> cases wa <;>
    simp [serialize_entry, deserialize_entry, optional_to_json,
      json_to_optional, Rat.den_intCast, Rat.num_intCast]

end Tui

/-- C4: on commit (leaving edit mode), the resulting entry is persisted into
the store when at least one of content, weight or waist is
non-empty/present, and committing with all three edit fields empty leaves
the store unchanged — in particular, without an entry for that date when it
had none. -/
theorem commit_persists_iff (sess : Tui.Session) (store : List Tui.Entry) :
    (sess.edit_content.to_text ≠ [] ∨
        (Tui.parse_number sess.edit_weight.to_text).isSome ∨
        (Tui.parse_number sess.edit_waist.to_text).isSome →
      Tui.get_entry_by_date (Tui.commit sess store) sess.date =
        some ⟨sess.edit_content.to_text,
          Tui.parse_number sess.edit_weight.to_text,
          Tui.parse_number sess.edit_waist.to_text, sess.date⟩) ∧
    (sess.edit_content.to_text = [] →
      Tui.parse_number sess.edit_weight.to_text = none →
      Tui.parse_number sess.edit_waist.to_text = none →
        Tui.commit sess store = store ∧
        (Tui.get_entry_by_date store sess.date = none →
          Tui.get_entry_by_date (Tui.commit sess store) sess.date = none)) := by
  constructor
  · intro h
    simp only [Tui.commit]
    rw [if_pos h]
    exact Tui.get_save_entry_self _ store
  · intro h1 h2 h3
    have hcond : ¬(sess.edit_content.to_text ≠ [] ∨
        (Tui.parse_number sess.edit_weight.to_text).isSome ∨
        (Tui.parse_number sess.edit_waist.to_text).isSome) := by
      simp [h1, h2, h3]
    have hc : Tui.commit sess store = store := by
      simp only [Tui.commit]
      rw [if_neg hcond]
    refine ⟨hc, fun hn => ?_⟩
    rw [hc]
    exact hn

/-- C4 witness: committing a session whose three edit buffers are all empty
over the empty store (which has no entry for date `0`) leaves the store
empty, with no entry for date `0`. -/
theorem commit_persists_iff_witness :
    Tui.commit c4_sess [] = [] ∧
    Tui.get_entry_by_date (Tui.commit c4_sess []) 0 = none := by
  have h := (commit_persists_iff c4_sess []).2 rfl rfl rfl
  exact ⟨h.1, h.2 rfl⟩

/-- C6: for every EntryStore (any number of entries, in any order),
deserializing the output of serializing it yields the same entries in the
same order. -/
theorem serialize_roundtrip (store : List Tui.Entry) :
    Tui.deserialize (Tui.serialize store) = some store := by
  have h : ∀ l : List Tui.Entry,
      Tui.deserialize_entries (l.map Tui.serialize_entry) = some l := by
    intro l
    induction l with
    | nil => rfl
    | cons e es ih =>
      simp [Tui.deserialize_entries, Tui.deserialize_serialize_entry, ih]
  simp [Tui.serialize, Tui.deserialize, h]

/-- C8: for every string `s`, `create_from(s, 0)` places the cursor at the
end (`before_cursor = s`, `after_cursor` empty), its `to_text()` equals `s`,
and a subsequent `move_cursor_backward` changes the buffer exactly when `s`
is non-empty. -/
theorem create_from_end_cursor (s : List Char) :
    Tui.EditBuffer.create_from s 0 = ⟨s, []⟩ ∧
    (Tui.EditBuffer.create_from s 0).to_text = s ∧
    ((Tui.EditBuffer.create_from s 0).move_cursor_backward ≠
        Tui.EditBuffer.create_from s 0 ↔ s ≠ []) := by
  have h0 : Tui.EditBuffer.create_from s 0 = ⟨s, []⟩ := by
    simp [Tui.EditBuffer.create_from]
  refine ⟨h0, ?_, ?_⟩
  · rw [h0]
    simp [Tui.EditBuffer.to_text]
  · rw [h0]
    cases s with
    | nil =>
      simp [Tui.EditBuffer.move_cursor_backward]
    | cons c cs =>
      have hne : (c :: cs) ≠ ([] : List Char) := List.cons_ne_nil c cs
      obtain ⟨l, hl⟩ := Option.isSome_iff_exists.mp
        (List.getLast?_isSome.mpr hne)
      constructor
      · intro _
        simp [hne]
      · intro _
        simp [Tui.EditBuffer.move_cursor_backward, hl]

/-- C9: constructing the app resets the mode to `Main` and the current date
to the current local date regardless of what was persisted, while entries,
sections, scale factor and file path are taken unchanged from the persisted
state — and the defaults are used when no persisted state exists. -/
theorem myapp_new_resets_mode_and_date (storage : Option Gui.MyApp)
    (now : ℤ) :
    (Gui.MyApp.new storage now).mode = Gui.Mode.Main ∧
    (Gui.MyApp.new storage now).curr_date = now ∧
    (∀ app, storage = some app →
      (Gui.MyApp.new storage now).entries = app.entries ∧
      (Gui.MyApp.new storage now).sections = app.sections ∧
      (Gui.MyApp.new storage now).scale_factor = app.scale_factor ∧
      (Gui.MyApp.new storage now).path_to_file = app.path_to_file) ∧
    (storage = none → Gui.MyApp.new storage now = Gui.MyApp.default now) := by
  cases storage with
  | none => simp [Gui.MyApp.new, Gui.MyApp.default]
  | some app =>
    refine ⟨rfl, rfl, ?_, ?_⟩
    · intro a ha
      obtain rfl : app = a := by injection ha
      exact ⟨rfl, rfl, rfl, rfl⟩
    · intro h
      cases h

/-- C9 witness: from a persisted state with mode `Edit` and stored date `3`,
constructing the app at current date `9` yields mode `Main`, date `9`, and
the persisted entries unchanged. -/
theorem myapp_new_resets_mode_and_date_witness :
    (Gui.MyApp.new (some c9_app) 9).mode = Gui.Mode.Main ∧
    (Gui.MyApp.new (some c9_app) 9).curr_date = 9 ∧
    (Gui.MyApp.new (some c9_app) 9).entries = c9_app.entries := by
  have h := myapp_new_resets_mode_and_date (some c9_app) 9
  exact ⟨h.1, h.2.1, (h.2.2.1 c9_app rfl).1⟩

/-- C10: in the Edit-mode retention step, an entry with the edit flag set is
never removed; every entry with the flag clear, empty content and
non-positive measurements is removed; entries with any of these fields
populated are retained (unchanged — retention is membership-preserving). -/
theorem edit_pass_retention (entries : List Gui.Entry) (e : Gui.Entry) :
    (e ∈ entries → e.edit = true → e ∈ Gui.retain_edit_pass entries) ∧
    (e ∈ entries →
      e.edit = true ∨ 0 < e.content.length ∨ 0 < e.weight_kg ∨
        0 < e.waist_cm →
      e ∈ Gui.retain_edit_pass entries) ∧
    (e.edit = false → e.content = [] → e.weight_kg ≤ 0 → e.waist_cm ≤ 0 →
      e ∉ Gui.retain_edit_pass entries) ∧
    (e ∈ Gui.retain_edit_pass entries → e ∈ entries) := by
  have hmem : e ∈ Gui.retain_edit_pass entries ↔ e ∈ entries ∧
      (e.edit = true ∨ 0 < e.content.length ∨ 0 < e.weight_kg ∨
        0 < e.waist_cm) := by
    simp only [Gui.retain_edit_pass, List.mem_filter, Bool.or_eq_true,
      decide_eq_true_eq, beq_iff_eq]
    constructor
    · rintro ⟨h1, h2⟩
      exact ⟨h1, by tauto⟩
    · rintro ⟨h1, h2⟩
      exact ⟨h1, by tauto⟩
  refine ⟨fun hin hed => hmem.mpr ⟨hin, Or.inl hed⟩,
    fun hin hcond => hmem.mpr ⟨hin, hcond⟩, ?_,
    fun hin => (hmem.mp hin).1⟩
  intro hed hcont hw hwa hin
  rcases (hmem.mp hin).2 with h | h | h | h
  · rw [hed] at h
    exact absurd h (by simp)
  · rw [hcont] at h
    simp at h
  · exact absurd h (not_lt.mpr hw)
  · exact absurd h (not_lt.mpr hwa)

/-- C10 witness: of two measurement-free, content-free entries, the one with
the edit flag set survives the retention step and the one without it is
removed. -/
theorem edit_pass_retention_witness :
    c10_keep ∈ Gui.retain_edit_pass c10_entries ∧
    c10_drop ∉ Gui.retain_edit_pass c10_entries :=
  ⟨(edit_pass_retention c10_entries c10_keep).1 (by simp [c10_entries]) rfl,
    (edit_pass_retention c10_entries c10_drop).2.2.1 rfl rfl (le_refl 0)
      (le_refl 0)⟩
